import Mathlib

/-!
The PL/0 stack-machine runtime (`src/lib/pl0.h`, `src/lib/pl0.cc`).

A shallow embedding of the runtime library: the operand stack with its cursor,
the data-movement primitives, the operators, the call primitives and the
conditional jump.  The machine state the C file keeps in the file-level statics
`stack` and `at`, in the variables of the generated program and on the standard
output is one explicit `State` value that every primitive transforms.

Conventions of the embedding:

* `int_t` is `int`; its values are integers in `[-2^31, 2^31)` (`IsWord`), and
  the operators `+`, `-`, `*` reduce their result into that range (`wrap32`).
* The division `/` is the one operator without a value on some operands: a zero
  divisor, and the quotient `INT_MIN / -1` that is not an `int`.  The source
  tests for neither; `dvi` is a function into `Option State` that is `none`
  there.
* The source never checks an index: `stack[++at] = v` and `stack[at--]` are
  executed whatever the cursor is.  The embedding keeps that: `stack` is a total
  map over indices, `push` and `pop` are total functions, and `InArray` says
  which indices are slots of the 100-element array.  The embedding describes
  the program only while every slot accessed is a slot of the array: a store
  outside the array has no defined effect in the source (it may land on the
  cursor itself), so the statements below assume room for every push they
  make.
* The cursor of the source is called `at`, a reserved word here; the field is
  named `cursor`.
-/

namespace PL0

/-- The machine word, `typedef int int_t;`. -/
abbrev int_t := Int

/-- The values an `int_t` can hold: 32-bit two's-complement integers. -/
def IsWord (v : Int) : Prop := -2 ^ 31 ≤ v ∧ v < 2 ^ 31

instance (v : Int) : Decidable (IsWord v) := by
  unfold IsWord; infer_instance

/-- Reduction of a mathematical result to the 32-bit signed word holding it. -/
def wrap32 (x : Int) : int_t := (x + 2 ^ 31) % 2 ^ 32 - 2 ^ 31

/-- The bit pattern of a word, as an unsigned 32-bit number. -/
def toBits (v : int_t) : Nat := (v % 2 ^ 32).toNat

/-- The signed word with a given 32-bit pattern. -/
def ofBits (n : Nat) : int_t := if n < 2 ^ 31 then (n : Int) else (n : Int) - 2 ^ 32

/-- Bitwise `&` of two words, on their two's-complement bit patterns. -/
def land32 (a b : int_t) : int_t := ofBits (toBits a &&& toBits b)

/-- Number of slots of `static int_t stack[100];`. -/
def stackSize : Nat := 100

/-- The indices that are slots of the stack array: `0 .. 99`. -/
def InArray (i : Int) : Prop := 0 ≤ i ∧ i < (stackSize : Int)

instance (i : Int) : Decidable (InArray i) := by
  unfold InArray; infer_instance

/-- The state of the machine: the statics `stack` and `at` of `pl0.cc`, the
storage cells of the generated program (addressed by a number standing for the
pointer passed to `ldl`/`stl`), and what has been written to standard output. -/
structure State where
  /-- Contents of `stack`, by index. -/
  stack : Int → int_t
  /-- The cursor, `at` in the source: index of the top element. -/
  cursor : Int
  /-- The addressable locations of the generated program. -/
  vars : Nat → int_t
  /-- The characters written to standard output so far. -/
  out : String

/-- The state at process start: statics are zero-initialised, `at = 0`, nothing
has been printed. -/
def init : State :=
  { stack := fun _ => 0, cursor := 0, vars := fun _ => 0, out := "" }

/-- Assignment to one cell of a map. -/
def setAt {α : Type} [DecidableEq α] (f : α → int_t) (k : α) (v : int_t) : α → int_t :=
  fun i => if i = k then v else f i

/-- `void push(int_t v) { stack[++at] = v; }`.  It describes the source while the
slot written, `cursor + 1`, is a slot of the array. -/
def push (v : int_t) (s : State) : State :=
  let c := s.cursor + 1
  { s with cursor := c, stack := setAt s.stack c v }

/-- `int_t pop() { return stack[at--]; }`: the value read and the state after. -/
def pop (s : State) : int_t × State :=
  (s.stack s.cursor, { s with cursor := s.cursor - 1 })

/-- The text `printf("%d", v)` produces: the decimal digits of `v`, preceded by
`-` when `v` is negative. -/
def decimal (v : int_t) : String :=
  if v < 0 then "-" ++ Nat.repr (-v).toNat else Nat.repr v.toNat

/-- The number a sequence of decimal digit characters denotes, most significant
digit first, continuing from the value `acc` of the digits already read. -/
def digitsValue (acc : Nat) : List Char → Nat
  | [] => acc
  | c :: cs => digitsValue (10 * acc + (c.toNat - 48)) cs

/-- `void write(int_t v) { printf("%d\n", v); }` -/
def write (v : int_t) (s : State) : State :=
  { s with out := s.out ++ decimal v ++ "\n" }

/-- `void ldci(int_t val) { push(val); }` -/
def ldci (val : int_t) (s : State) : State := push val s

/-- `void ldl(const int_t* p) { push(*p); }` -/
def ldl (p : Nat) (s : State) : State := push (s.vars p) s

/-- `void stl(int_t* p) { *p = pop(); }` -/
def stl (p : Nat) (s : State) : State :=
  let (v, s1) := pop s
  { s1 with vars := setAt s1.vars p v }

/-- `void cup(void (*func)()) { func(); }` -/
def cup (func : State → State) (s : State) : State := func s

/-- `void csp(void (*func)(int_t v)) { func(pop()); }` -/
def csp (func : int_t → State → State) (s : State) : State :=
  let (v, s1) := pop s
  func v s1

/-- `void odd() { push(pop() & 1); }` -/
def odd (s : State) : State :=
  let (v, s1) := pop s
  push (land32 v 1) s1

/-- The macro `OP(_n, _x)`:
`void _n() { int_t right = pop(); int_t left = pop(); push(left _x right); }`,
with the operator given as a function of `left` and `right`. -/
def OP (f : int_t → int_t → int_t) (s : State) : State :=
  let (right, s1) := pop s
  let (left, s2) := pop s1
  push (f left right) s2

/-- The `int` value of a C++ comparison: 1 when it holds, 0 when not. -/
def boolWord (b : Bool) : int_t := if b then 1 else 0

/-- `OP(adi, +);` -/
def adi : State → State := OP (fun left right => wrap32 (left + right))

/-- `OP(sbi, -);` -/
def sbi : State → State := OP (fun left right => wrap32 (left - right))

/-- `OP(mpi, *);` -/
def mpi : State → State := OP (fun left right => wrap32 (left * right))

/-- The value of the C++ expression `left / right` on `int`: the quotient with
the fractional part discarded.  The expression has no defined value when
`right` is 0 or when the quotient is not representable in an `int` (for word
operands only `INT_MIN / -1`); the source does not test for either, and the
embedding gives `none` there. -/
def divWord (left right : int_t) : Option int_t :=
  if right = 0 ∨ ¬ IsWord (Int.tdiv left right) then none
  else some (Int.tdiv left right)

/-- `OP(dvi, /);`: the body of the macro `OP` with the division, which yields a
state only when the division has a value. -/
def dvi (s : State) : Option State :=
  let (right, s1) := pop s
  let (left, s2) := pop s1
  match divWord left right with
  | some q => some (push q s2)
  | none => none

/-- `OP(leqi, <=);` -/
def leqi : State → State := OP (fun left right => boolWord (decide (left ≤ right)))

/-- `OP(geqi, >=);` -/
def geqi : State → State := OP (fun left right => boolWord (decide (left ≥ right)))

/-- `OP(gti, >);` -/
def gti : State → State := OP (fun left right => boolWord (decide (left > right)))

/-- `OP(lti, <);` -/
def lti : State → State := OP (fun left right => boolWord (decide (left < right)))

/-- `OP(neqi, !=);` -/
def neqi : State → State := OP (fun left right => boolWord (decide (left ≠ right)))

/-- The macro `FJP(_x)`, `if (!pop()) goto _x`: whether the jump to the label is
taken, and the state after the pop. -/
def FJP (s : State) : Bool × State :=
  let (v, s1) := pop s
  (decide (v = 0), s1)

/-- The current top element: the slot the cursor indexes. -/
def top (s : State) : int_t := s.stack s.cursor

/-- The element below the top: the slot before the one the cursor indexes. -/
def second (s : State) : int_t := s.stack (s.cursor - 1)

/-- Pushing the values of a list, first element first. -/
def pushAll : List int_t → State → State
  | [], s => s
  | v :: vs, s => pushAll vs (push v s)

/-- Calling `pop` a given number of times: the values returned, in the order of
the calls, and the state after the last call. -/
def popN : Nat → State → List int_t × State
  | 0, s => ([], s)
  | n + 1, s =>
    let (v, s1) := pop s
    let (vs, s2) := popN n s1
    (v :: vs, s2)

/-- The generated code for `x := a + b; write(x)`:
`ldci a; ldci b; adi; stl &x; ldl &x; csp write`, with `x` the location of the
variable. -/
def sumProgram (a b : int_t) (x : Nat) (s : State) : State :=
  csp write (ldl x (stl x (adi (ldci b (ldci a s)))))

/-- A call of one of the two stack operations. -/
inductive StackCall where
  | push (v : int_t)
  | pop
  deriving DecidableEq

/-- The state after one call; the value a `pop` returns is dropped. -/
def runCall : StackCall → State → State
  | StackCall.push v, s => push v s
  | StackCall.pop, s => (pop s).2

/-- The state after a sequence of calls, made in list order. -/
def runCalls : List StackCall → State → State
  | [], s => s
  | c :: cs, s => runCalls cs (runCall c s)

/-- Every `push` of the sequence is made at a cursor of at most 98, so that the
slot it writes has index at most 99. -/
def pushesHaveRoom : List StackCall → State → Bool
  | [], _ => true
  | StackCall.push v :: cs, s => decide (s.cursor ≤ 98) && pushesHaveRoom cs (push v s)
  | StackCall.pop :: cs, s => pushesHaveRoom cs (pop s).2

/-- Every `pop` of the sequence is made at a cursor of at least 1, that is, on a
stack holding a value. -/
def popsNonEmpty : List StackCall → State → Bool
  | [], _ => true
  | StackCall.push v :: cs, s => popsNonEmpty cs (push v s)
  | StackCall.pop :: cs, s => decide (1 ≤ s.cursor) && popsNonEmpty cs (pop s).2

/-- The index of the slot a call accesses: `push` writes `stack[++at]`, the
slot after the cursor; `pop` reads `stack[at--]`, the slot at the cursor. -/
def slotOf : StackCall → State → Int
  | StackCall.push _, s => s.cursor + 1
  | StackCall.pop, s => s.cursor

/-- A sequence of calls made on a stack holding `d` values stays within the
stack: every `pop` finds at least one value held (it never pops the empty
stack) and every `push` finds fewer than 99 values held (it has room).  The
number of values held is counted from the calls alone: one more after a `push`,
one fewer after a `pop`. -/
def withinCapacity : Nat → List StackCall → Bool
  | _, [] => true
  | d, StackCall.push _ :: cs => decide (d + 1 < stackSize) && withinCapacity (d + 1) cs
  | d, StackCall.pop :: cs => decide (0 < d) && withinCapacity (d - 1) cs

/-- The indices of the slots a sequence of calls accesses, in call order. -/
def slotsTouched : List StackCall → State → List Int
  | [], _ => []
  | c :: cs, s => slotOf c s :: slotsTouched cs (runCall c s)

end PL0

namespace PL0

/-! ## Basic facts about the embedding -/

theorem popN_succ_last (n : Nat) (s : State) :
    popN (n + 1) s =
      ((popN n s).1 ++ [(pop (popN n s).2).1], (pop (popN n s).2).2) := by
  induction n generalizing s with
  | zero => rfl
  | succ n ih =>
    have h := ih (pop s).2
    show ((pop s).1 :: (popN (n + 1) (pop s).2).1, (popN (n + 1) (pop s).2).2) = _
    rw [h]
    rfl

theorem pushAll_popN (vs : List int_t) (s : State) :
    (popN vs.length (pushAll vs s)).1 = vs.reverse ∧
    (popN vs.length (pushAll vs s)).2.cursor = s.cursor ∧
    ∀ i : Int, i ≤ s.cursor →
      (popN vs.length (pushAll vs s)).2.stack i = s.stack i := by
  induction vs generalizing s with
  | nil => exact ⟨rfl, rfl, fun _ _ => rfl⟩
  | cons v vs ih =>
    obtain ⟨h1, h2, h3⟩ := ih (push v s)
    have hc : (push v s).cursor = s.cursor + 1 := rfl
    have key : popN (v :: vs).length (pushAll (v :: vs) s) =
        ((popN vs.length (pushAll vs (push v s))).1 ++
            [(pop (popN vs.length (pushAll vs (push v s))).2).1],
          (pop (popN vs.length (pushAll vs (push v s))).2).2) :=
      popN_succ_last vs.length (pushAll vs (push v s))
    rw [key]
    refine ⟨?_, ?_, ?_⟩
    · show (popN vs.length (pushAll vs (push v s))).1 ++
        [(popN vs.length (pushAll vs (push v s))).2.stack
          (popN vs.length (pushAll vs (push v s))).2.cursor] = _
      rw [h1, h2, h3 _ (le_refl _), List.reverse_cons]
      simp [push, setAt]
    · show (popN vs.length (pushAll vs (push v s))).2.cursor - 1 = _
      rw [h2, hc]; omega
    · intro i hi
      show (popN vs.length (pushAll vs (push v s))).2.stack i = _
      rw [h3 i (by rw [hc]; omega)]
      have : i ≠ s.cursor + 1 := by omega
      simp [push, setAt, this]

theorem wrap32_of_isWord (x : Int) (h : IsWord x) : wrap32 x = x := by
  unfold IsWord at h
  show ((x + 2 ^ 31) % 2 ^ 32 - 2 ^ 31 : Int) = x
  omega

theorem isWord_wrap32 (x : Int) : IsWord (wrap32 x) := by
  unfold IsWord wrap32
  omega

theorem OP_push_push (f : int_t → int_t → int_t) (l r : int_t) (s : State) :
    (OP f (push r (push l s))).cursor = s.cursor + 1 ∧
    top (OP f (push r (push l s))) = f l r ∧
    ∀ i : Int, i ≤ s.cursor → (OP f (push r (push l s))).stack i = s.stack i := by
  refine ⟨?_, ?_, ?_⟩
  · simp only [OP, pop, push]; omega
  · have h1 : s.cursor + 1 + 1 - 1 - 1 + 1 = s.cursor + 1 := by omega
    have h2 : s.cursor + 1 + 1 - 1 = s.cursor + 1 := by omega
    have h3 : s.cursor + 1 ≠ s.cursor + 1 + 1 := by omega
    simp [OP, pop, push, top, setAt, h1, h2, h3]
  · intro i hi
    have h1 : s.cursor + 1 + 1 - 1 - 1 + 1 = s.cursor + 1 := by omega
    have h2 : i ≠ s.cursor + 1 := by omega
    have h3 : i ≠ s.cursor + 1 + 1 := by omega
    simp [OP, pop, push, setAt, h1, h2, h3]

theorem land32_one (v : int_t) : land32 v 1 = v % 2 := by
  have hb : toBits 1 = 1 := by decide
  have h2 : (toBits v : Int) = v % 2 ^ 32 := by
    unfold toBits
    exact Int.toNat_of_nonneg (Int.emod_nonneg _ (by norm_num))
  have h3 : ((toBits v % 2 : Nat) : Int) = v % 2 := by
    rw [Int.natCast_mod, h2]
    exact Int.emod_emod_of_dvd v (by norm_num)
  have h4 : toBits v % 2 < 2 := Nat.mod_lt _ (by norm_num)
  unfold land32 ofBits
  rw [hb, Nat.and_one_is_mod]
  rw [if_pos (by omega), h3]

theorem inArray_of_bounds (i : Int) (h0 : 0 ≤ i) (h1 : i ≤ 99) : InArray i := by
  unfold InArray stackSize
  constructor
  · exact h0
  · push_cast; omega

theorem runCalls_cursor_le (cs : List StackCall) (s : State)
    (hs : s.cursor ≤ 99) (h : pushesHaveRoom cs s = true) :
    (runCalls cs s).cursor ≤ 99 := by
  induction cs generalizing s with
  | nil => exact hs
  | cons c cs ih =>
    cases c with
    | push v =>
      simp only [pushesHaveRoom, Bool.and_eq_true, decide_eq_true_eq] at h
      exact ih (push v s) (by show s.cursor + 1 ≤ 99; omega) h.2
    | pop =>
      simp only [pushesHaveRoom] at h
      exact ih (pop s).2 (by show s.cursor - 1 ≤ 99; omega) h

theorem runCalls_cursor_nonneg (cs : List StackCall) (s : State)
    (hs : 0 ≤ s.cursor) (h : popsNonEmpty cs s = true) :
    0 ≤ (runCalls cs s).cursor := by
  induction cs generalizing s with
  | nil => exact hs
  | cons c cs ih =>
    cases c with
    | push v =>
      simp only [popsNonEmpty] at h
      exact ih (push v s) (by show 0 ≤ s.cursor + 1; omega) h
    | pop =>
      simp only [popsNonEmpty, Bool.and_eq_true, decide_eq_true_eq] at h
      exact ih (pop s).2 (by show 0 ≤ s.cursor - 1; omega) h.2

theorem digitChar_value (d : Nat) (h : d < 10) :
    (Nat.digitChar d).toNat - 48 = d ∧ (Nat.digitChar d).isDigit = true := by
  interval_cases d <;> exact ⟨rfl, rfl⟩

theorem toDigitsCore_value (fuel n : Nat) (ds : List Char) (h : n < fuel) :
    digitsValue 0 (Nat.toDigitsCore 10 fuel n ds) = digitsValue n ds := by
  induction fuel generalizing n ds with
  | zero => omega
  | succ fuel ih =>
    have hd := (digitChar_value (n % 10) (Nat.mod_lt _ (by norm_num))).1
    unfold Nat.toDigitsCore
    dsimp only
    split
    · rename_i h0
      show digitsValue (10 * 0 + ((Nat.digitChar (n % 10)).toNat - 48)) ds = _
      rw [hd]
      congr 1
      omega
    · rename_i h0
      rw [ih (n / 10) _ (by omega)]
      show digitsValue (10 * (n / 10) + ((Nat.digitChar (n % 10)).toNat - 48)) ds = _
      rw [hd]
      congr 1
      omega

theorem toDigitsCore_isDigit (fuel n : Nat) (ds : List Char)
    (h : ∀ c ∈ ds, c.isDigit = true) :
    ∀ c ∈ Nat.toDigitsCore 10 fuel n ds, c.isDigit = true := by
  induction fuel generalizing n ds with
  | zero => simpa [Nat.toDigitsCore] using h
  | succ fuel ih =>
    have hd := (digitChar_value (n % 10) (Nat.mod_lt _ (by norm_num))).2
    have h2 : ∀ c ∈ Nat.digitChar (n % 10) :: ds, c.isDigit = true := by
      intro c hc
      rcases List.mem_cons.mp hc with rfl | hc
      · exact hd
      · exact h c hc
    unfold Nat.toDigitsCore
    dsimp only
    split
    · exact h2
    · exact ih (n / 10) _ h2

theorem decimal_nonneg (v : int_t) (h : 0 ≤ v) :
    digitsValue 0 (decimal v).data = v.toNat ∧ ∀ c ∈ (decimal v).data, c.isDigit = true := by
  have hv : ¬ v < 0 := by unfold int_t at *; omega
  unfold decimal
  rw [if_neg hv]
  constructor
  · show digitsValue 0 (Nat.toDigitsCore 10 (v.toNat + 1) v.toNat []) = _
    rw [toDigitsCore_value _ _ _ (by omega)]
    rfl
  · exact toDigitsCore_isDigit _ _ _ (by simp)

theorem decimal_neg (v : int_t) (h : v < 0) : decimal v = "-" ++ decimal (-v) := by
  have hv : ¬ (-v < 0) := by unfold int_t at *; omega
  unfold decimal
  rw [if_pos h, if_neg hv]

theorem runCalls_replicate_push (n : Nat) (v : int_t) (s : State) :
    (runCalls (List.replicate n (StackCall.push v)) s).cursor = s.cursor + n := by
  induction n generalizing s with
  | zero => simp [runCalls]
  | succ n ih =>
    show (runCalls (List.replicate n (StackCall.push v)) (push v s)).cursor = _
    rw [ih (push v s)]
    show s.cursor + 1 + (n : Int) = s.cursor + ((n + 1 : Nat) : Int)
    push_cast
    omega

theorem neg_tmod_eq (a b : Int) : (-a).tmod b = -(a.tmod b) := by
  rw [Int.tmod_def, Int.tmod_def, Int.neg_tdiv]
  ring

theorem tmod_bound_of_nonneg (a b : Int) (ha : 0 ≤ a) (hb : b ≠ 0) :
    0 ≤ a.tmod b ∧ (a.tmod b).natAbs < b.natAbs := by
  have h0 : 0 ≤ a.tmod b := Int.tmod_nonneg b ha
  refine ⟨h0, ?_⟩
  rcases lt_or_gt_of_ne hb with hneg | hpos
  · have h1 : a.tmod (-b) < -b := Int.tmod_lt_of_pos a (by omega)
    rw [Int.tmod_neg] at h1
    omega
  · have h1 : a.tmod b < b := Int.tmod_lt_of_pos a hpos
    omega

theorem tdiv_remainder (l r : Int) (hr : r ≠ 0) :
    (l - l.tdiv r * r).natAbs < r.natAbs ∧
    (0 ≤ l → 0 ≤ l - l.tdiv r * r) ∧
    (l ≤ 0 → l - l.tdiv r * r ≤ 0) := by
  have hrem : l - l.tdiv r * r = l.tmod r := by
    rw [Int.tmod_def, Int.mul_comm]
  rw [hrem]
  rcases le_total 0 l with hl | hl
  · obtain ⟨h0, h1⟩ := tmod_bound_of_nonneg l r hl hr
    exact ⟨h1, fun _ => h0, fun h => by
      have : l = 0 := by omega
      subst this
      simp⟩
  · obtain ⟨h0, h1⟩ := tmod_bound_of_nonneg (-l) r (by omega) hr
    rw [neg_tmod_eq] at h0
    rw [neg_tmod_eq, Int.natAbs_neg] at h1
    exact ⟨h1, fun h => by
      have : l = 0 := by omega
      subst this
      simp, fun _ => by omega⟩

theorem isWord_tdiv (l r : Int) (hl : IsWord l) (hr : IsWord r) (h0 : r ≠ 0)
    (hmin : ¬ (l = -2 ^ 31 ∧ r = -1)) : IsWord (l.tdiv r) := by
  unfold IsWord at *
  have habs : (l.tdiv r).natAbs = l.natAbs / r.natAbs := Int.natAbs_tdiv l r
  rcases Nat.lt_or_ge r.natAbs 2 with h1 | h2
  · have hr1 : r = 1 ∨ r = -1 := by omega
    rcases hr1 with rfl | rfl
    · rw [Int.tdiv_one]; exact hl
    · have h3 : l.tdiv (-1) = -l := by
        rw [Int.tdiv_neg, Int.tdiv_one]
      rw [h3]
      omega
  · have h3 : l.natAbs / r.natAbs ≤ l.natAbs / 2 := Nat.div_le_div_left h2 (by norm_num)
    omega

theorem divWord_eq_some (l r : int_t) (h0 : r ≠ 0) (hw : IsWord (Int.tdiv l r)) :
    divWord l r = some (Int.tdiv l r) := by
  unfold divWord
  rw [if_neg]
  rintro (h | h)
  · exact h0 h
  · exact h hw

theorem divWord_eq_none_iff (l r : int_t) :
    divWord l r = none ↔ (r = 0 ∨ ¬ IsWord (Int.tdiv l r)) := by
  unfold divWord
  split <;> simp_all

theorem OP_effect (f : int_t → int_t → int_t) (s : State) :
    (OP f s).cursor = s.cursor - 1 ∧
    top (OP f s) = f (s.stack (s.cursor - 1)) (s.stack s.cursor) ∧
    (∀ i : Int, i ≠ s.cursor - 1 → (OP f s).stack i = s.stack i) ∧
    (OP f s).vars = s.vars ∧ (OP f s).out = s.out := by
  have h1 : s.cursor - 1 - 1 + 1 = s.cursor - 1 := by omega
  refine ⟨?_, ?_, ?_, rfl, rfl⟩
  · simp only [OP, pop, push]; omega
  · simp [OP, pop, push, top, setAt, h1]
  · intro i hi
    simp [OP, pop, push, setAt, h1, hi]

theorem dvi_eq_some (s : State) (h0 : top s ≠ 0)
    (hw : IsWord (Int.tdiv (s.stack (s.cursor - 1)) (top s))) :
    dvi s = some (OP Int.tdiv s) := by
  have h := divWord_eq_some (s.stack (s.cursor - 1)) (top s) h0 hw
  simp only [top] at h
  simp [dvi, OP, pop, h]

theorem dvi_eq_none_iff (s : State) :
    dvi s = none ↔
      (top s = 0 ∨ ¬ IsWord (Int.tdiv (s.stack (s.cursor - 1)) (top s))) := by
  rw [← divWord_eq_none_iff]
  simp only [dvi, pop, top]
  cases divWord (s.stack (s.cursor - 1)) (s.stack s.cursor) <;> simp

theorem slotsTouched_replicate_push (n : Nat) (v : int_t) (s : State) :
    ∀ i ∈ slotsTouched (List.replicate n (StackCall.push v)) s,
      s.cursor < i ∧ i ≤ s.cursor + n := by
  induction n generalizing s with
  | zero => intro i hi; simp [slotsTouched] at hi
  | succ n ih =>
    intro i hi
    simp only [List.replicate_succ, slotsTouched, List.mem_cons] at hi
    rcases hi with rfl | hi
    · show s.cursor < s.cursor + 1 ∧ s.cursor + 1 ≤ s.cursor + ((n + 1 : Nat) : Int)
      push_cast
      omega
    · have h := ih (push v s) i hi
      have hc : (push v s).cursor = s.cursor + 1 := rfl
      rw [hc] at h
      push_cast
      omega

theorem odd_effect (s : State) :
    (odd s).cursor = s.cursor ∧
    ∀ i : Int, i ≠ s.cursor → (odd s).stack i = s.stack i := by
  have h1 : s.cursor - 1 + 1 = s.cursor := by omega
  constructor
  · simp only [odd, pop, push]; omega
  · intro i hi
    simp [odd, pop, push, setAt, h1, hi]

theorem push_slot_inArray_iff (s : State) :
    InArray (s.cursor + 1) ↔ (-1 ≤ s.cursor ∧ s.cursor ≤ 98) := by
  unfold InArray stackSize
  push_cast
  constructor
  · rintro ⟨h1, h2⟩; constructor <;> omega
  · rintro ⟨h1, h2⟩; constructor <;> omega

theorem FJP_OP_push_push (f : int_t → int_t → int_t) (l r : int_t) (s : State) :
    ((FJP (OP f (push r (push l s)))).1 = true ↔ f l r = 0) ∧
    (FJP (OP f (push r (push l s)))).2.cursor = s.cursor := by
  obtain ⟨h1, h2, -⟩ := OP_push_push f l r s
  constructor
  · show decide (top (OP f (push r (push l s))) = 0) = true ↔ _
    rw [h2, decide_eq_true_eq]
  · show (OP f (push r (push l s))).cursor - 1 = _
    rw [h1]; omega

theorem boolWord_eq_zero (b : Bool) : boolWord b = 0 ↔ b = false := by
  cases b <;> simp [boolWord]

theorem runCalls_append (as bs : List StackCall) (s : State) :
    runCalls (as ++ bs) s = runCalls bs (runCalls as s) := by
  induction as generalizing s with
  | nil => rfl
  | cons a as ih => exact ih (runCall a s)

theorem withinCapacity_slots (cs : List StackCall) (d : Nat) (s : State)
    (hd : s.cursor = (d : Int)) (hd99 : d ≤ 99) (h : withinCapacity d cs = true) :
    (∀ i ∈ slotsTouched cs s, 1 ≤ i ∧ InArray i) ∧
    (runCalls cs s).stack 0 = s.stack 0 ∧
    0 ≤ (runCalls cs s).cursor ∧ (runCalls cs s).cursor ≤ 99 := by
  induction cs generalizing d s with
  | nil =>
    refine ⟨fun i hi => by simp [slotsTouched] at hi, rfl, ?_, ?_⟩
    · show 0 ≤ s.cursor; omega
    · show s.cursor ≤ 99; omega
  | cons c cs ih =>
    cases c with
    | push v =>
      simp only [withinCapacity, stackSize, Bool.and_eq_true, decide_eq_true_eq] at h
      have hc : (push v s).cursor = ((d + 1 : Nat) : Int) := by
        show s.cursor + 1 = _
        push_cast
        omega
      obtain ⟨h1, h2, h3, h4⟩ := ih (d + 1) (push v s) hc (by omega) h.2
      refine ⟨?_, ?_, h3, h4⟩
      · intro i hi
        simp only [slotsTouched, List.mem_cons] at hi
        rcases hi with rfl | hi
        · have e : slotOf (StackCall.push v) s = s.cursor + 1 := rfl
          rw [e]
          exact ⟨by omega, inArray_of_bounds _ (by omega) (by omega)⟩
        · exact h1 i hi
      · show (runCalls cs (push v s)).stack 0 = _
        rw [h2]
        have hne : (0 : Int) ≠ s.cursor + 1 := by omega
        simp [push, setAt, hne]
    | pop =>
      simp only [withinCapacity, Bool.and_eq_true, decide_eq_true_eq] at h
      have hc : (pop s).2.cursor = ((d - 1 : Nat) : Int) := by
        show s.cursor - 1 = _
        omega
      obtain ⟨h1, h2, h3, h4⟩ := ih (d - 1) (pop s).2 hc (by omega) h.2
      refine ⟨?_, ?_, h3, h4⟩
      · intro i hi
        simp only [slotsTouched, List.mem_cons] at hi
        rcases hi with rfl | hi
        · have e : slotOf StackCall.pop s = s.cursor := rfl
          rw [e]
          exact ⟨by omega, inArray_of_bounds _ (by omega) (by omega)⟩
        · exact h1 i hi
      · show (runCalls cs (pop s).2).stack 0 = _
        rw [h2]
        rfl

/-! ## The claims -/

/-- C1 (LIFO order).  From a stack state with cursor `c` and for a list `vs`
with `c + |vs| ≤ 99`, pushing the values of `vs` in order and then calling `pop`
`|vs|` times returns the values of `vs` in reverse order; afterwards the cursor
is `c` again and the slots `1..c` hold the values they held before.  When
`c ≥ 0`, every slot the pushes wrote and the pops read is a slot of the
array. -/
theorem C1_lifo_order (s : State) (vs : List int_t)
    (hroom : s.cursor + (vs.length : Int) ≤ 99) :
    (popN vs.length (pushAll vs s)).1 = vs.reverse ∧
    (popN vs.length (pushAll vs s)).2.cursor = s.cursor ∧
    (∀ i : Int, 1 ≤ i → i ≤ s.cursor →
      (popN vs.length (pushAll vs s)).2.stack i = s.stack i) ∧
    (0 ≤ s.cursor →
      ∀ i : Int, s.cursor < i → i ≤ s.cursor + (vs.length : Int) → InArray i) := by
  obtain ⟨h1, h2, h3⟩ := pushAll_popN vs s
  exact ⟨h1, h2, fun i _ hi => h3 i hi,
    fun hc i h4 h5 => inArray_of_bounds i (by omega) (by omega)⟩

/-- C1 at a concrete input: on the stack holding 9 (cursor 1), `push(5); push(6)`
followed by two pops yields 6, then 5. -/
theorem C1_lifo_order_witness :
    (popN 2 (pushAll [5, 6] (push 9 init))).1 = [6, 5] ∧
    (popN 2 (pushAll [5, 6] (push 9 init))).2.cursor = 1 ∧
    (popN 2 (pushAll [5, 6] (push 9 init))).2.stack 1 = 9 :=
  have h := C1_lifo_order (push 9 init) [5, 6] (by decide)
  ⟨h.1, h.2.1, h.2.2.1 1 (by decide) (by decide)⟩

/-- C2 (operand order of the arithmetic operators).  On a stack with room for
two more values (the two slots written are slots of the array when the cursor
is not negative), after `push(l); push(r)` the operators
`adi`, `sbi` and `mpi` leave on top `l + r`, `l - r` and `l * r` reduced to a
32-bit word, which is the exact result when that fits in a word; the left
operand is the value pushed first, so when `l ≠ r` and `l - r` fits, `sbi` does
not yield `r - l`. -/
theorem C2_arith_operand_order (s : State) (l r : int_t)
    (hroom : s.cursor + 2 ≤ 99) :
    (0 ≤ s.cursor → InArray (s.cursor + 1) ∧ InArray (s.cursor + 2)) ∧
    (top (adi (push r (push l s))) = wrap32 (l + r) ∧
      top (sbi (push r (push l s))) = wrap32 (l - r) ∧
      top (mpi (push r (push l s))) = wrap32 (l * r)) ∧
    ((IsWord (l + r) → top (adi (push r (push l s))) = l + r) ∧
      (IsWord (l - r) → top (sbi (push r (push l s))) = l - r) ∧
      (IsWord (l * r) → top (mpi (push r (push l s))) = l * r)) ∧
    (IsWord (l - r) → l ≠ r → top (sbi (push r (push l s))) ≠ r - l) := by
  have ha : top (adi (push r (push l s))) = wrap32 (l + r) :=
    (OP_push_push (fun left right => wrap32 (left + right)) l r s).2.1
  have hs : top (sbi (push r (push l s))) = wrap32 (l - r) :=
    (OP_push_push (fun left right => wrap32 (left - right)) l r s).2.1
  have hm : top (mpi (push r (push l s))) = wrap32 (l * r) :=
    (OP_push_push (fun left right => wrap32 (left * right)) l r s).2.1
  refine ⟨fun hc => ⟨inArray_of_bounds _ (by omega) (by omega),
    inArray_of_bounds _ (by omega) (by omega)⟩, ⟨ha, hs, hm⟩, ⟨?_, ?_, ?_⟩, ?_⟩
  · intro h; rw [ha, wrap32_of_isWord _ h]
  · intro h; rw [hs, wrap32_of_isWord _ h]
  · intro h; rw [hm, wrap32_of_isWord _ h]
  · intro h hne; rw [hs, wrap32_of_isWord _ h]
    intro heq
    unfold int_t at *
    omega

/-- C2 at a concrete input: from the initial state, `push(7); push(2)` followed
by `adi`, `sbi`, `mpi` leaves 9, 5 and 14. -/
theorem C2_arith_operand_order_witness :
    top (adi (push 2 (push 7 init))) = 7 + 2 ∧
    top (sbi (push 2 (push 7 init))) = 7 - 2 ∧
    top (mpi (push 2 (push 7 init))) = 7 * 2 :=
  have h := C2_arith_operand_order init 7 2 (by decide)
  ⟨h.2.2.1.1 (by decide), h.2.2.1.2.1 (by decide), h.2.2.1.2.2 (by decide)⟩

/-- C3 (truthy encoding of the relational operators).  On a stack with cursor
`c ≥ 0` and room for two more values (so that both pushes write slots of the
array), for every pair of words `(l, r)`, after `push(l); push(r)` the operators
`leqi`, `geqi`, `gti`, `lti` and `neqi` leave on top exactly 1 when `l <= r`,
`l >= r`, `l > r`, `l < r` and `l != r` holds (comparison of the signed values),
and exactly 0 otherwise. -/
theorem C3_relational_encoding (s : State) (l r : int_t)
    (hc : 0 ≤ s.cursor) (hroom : s.cursor + 2 ≤ 99) :
    (InArray (s.cursor + 1) ∧ InArray (s.cursor + 2)) ∧
    top (leqi (push r (push l s))) = (if l ≤ r then 1 else 0) ∧
    top (geqi (push r (push l s))) = (if l ≥ r then 1 else 0) ∧
    top (gti (push r (push l s))) = (if l > r then 1 else 0) ∧
    top (lti (push r (push l s))) = (if l < r then 1 else 0) ∧
    top (neqi (push r (push l s))) = (if l ≠ r then 1 else 0) := by
  refine ⟨⟨inArray_of_bounds _ (by omega) (by omega),
    inArray_of_bounds _ (by omega) (by omega)⟩, ?_, ?_, ?_, ?_, ?_⟩
  · exact (OP_push_push (fun left right => boolWord (decide (left ≤ right))) l r s).2.1.trans
      (by simp [boolWord])
  · exact (OP_push_push (fun left right => boolWord (decide (left ≥ right))) l r s).2.1.trans
      (by simp [boolWord])
  · exact (OP_push_push (fun left right => boolWord (decide (left > right))) l r s).2.1.trans
      (by simp [boolWord])
  · exact (OP_push_push (fun left right => boolWord (decide (left < right))) l r s).2.1.trans
      (by simp [boolWord])
  · exact (OP_push_push (fun left right => boolWord (decide (left ≠ right))) l r s).2.1.trans
      (by simp [boolWord])

/-- C3 at a concrete input: from the initial state with `l = -3`, `r = 2` (so
`l < r` as signed words) the five operators leave 1, 0, 0, 1, 1. -/
theorem C3_relational_encoding_witness :
    top (leqi (push 2 (push (-3) init))) = 1 ∧
    top (geqi (push 2 (push (-3) init))) = 0 ∧
    top (gti (push 2 (push (-3) init))) = 0 ∧
    top (lti (push 2 (push (-3) init))) = 1 ∧
    top (neqi (push 2 (push (-3) init))) = 1 :=
  (C3_relational_encoding init (-3) 2 (by decide) (by decide)).2

/-- C4 (parity test).  On a non-empty stack (cursor at least 1) whose top is
`v`, `odd` leaves the cursor where it was and replaces the top by the
two's-complement `v & 1`, which is 1 exactly when `v` is odd and 0 exactly when
`v` is even, for negative `v` as well.  The slot it reads and rewrites is the
one the cursor indexes, a slot of the array when the cursor is at most 99. -/
theorem C4_odd_parity (s : State) (hne : 1 ≤ s.cursor) :
    (s.cursor ≤ 99 → InArray s.cursor) ∧
    (odd s).cursor = s.cursor ∧
    top (odd s) = land32 (top s) 1 ∧
    (top (odd s) = 1 ↔ Odd (top s)) ∧
    (top (odd s) = 0 ↔ Even (top s)) := by
  have hcur : (odd s).cursor = s.cursor := by
    simp only [odd, pop, push]; omega
  have htop : top (odd s) = land32 (top s) 1 := by
    have h1 : s.cursor - 1 + 1 = s.cursor := by omega
    simp [odd, pop, push, top, setAt, h1]
  refine ⟨fun hin => inArray_of_bounds _ (by omega) hin, hcur, htop, ?_, ?_⟩
  · rw [htop, land32_one, Int.odd_iff]
  · rw [htop, land32_one, Int.even_iff]

/-- C4 at a concrete input: on the stack holding -7, `odd` leaves 1 on top and
the cursor at 1. -/
theorem C4_odd_parity_witness :
    (odd (push (-7) init)).cursor = 1 ∧ top (odd (push (-7) init)) = 1 :=
  have h := C4_odd_parity (push (-7) init) (by decide)
  ⟨h.2.1, h.2.2.2.1.mpr (by decide)⟩

/-- C5 (store/load round trip).  On a non-empty stack (cursor at least 1)
whose top is `v`, `stl(p)` followed by `ldl(p)` leaves location `p` holding `v`
and the stack with `v` on top at the cursor it had before `stl`; the slot
popped and pushed again is a slot of the array when the cursor is at most 99. -/
theorem C5_store_load_roundtrip (s : State) (p : Nat) (hne : 1 ≤ s.cursor) :
    (s.cursor ≤ 99 → InArray s.cursor) ∧
    (stl p s).vars p = top s ∧
    (ldl p (stl p s)).vars p = top s ∧
    top (ldl p (stl p s)) = top s ∧
    (ldl p (stl p s)).cursor = s.cursor := by
  have h1 : s.cursor - 1 + 1 = s.cursor := by omega
  refine ⟨fun hin => inArray_of_bounds _ (by omega) hin, ?_, ?_, ?_, ?_⟩
  · simp [stl, pop, top, setAt]
  · simp [ldl, stl, pop, push, top, setAt]
  · simp [ldl, stl, pop, push, top, setAt, h1]
  · simp only [ldl, stl, pop, push]; omega

/-- C5 at a concrete input: with 8 on top of the stack, `stl(3); ldl(3)` leaves
location 3 holding 8 and 8 on top at cursor 1. -/
theorem C5_store_load_roundtrip_witness :
    (ldl 3 (stl 3 (push 8 init))).vars 3 = 8 ∧
    top (ldl 3 (stl 3 (push 8 init))) = 8 ∧
    (ldl 3 (stl 3 (push 8 init))).cursor = 1 :=
  have h := C5_store_load_roundtrip (push 8 init) 3 (by decide)
  ⟨h.2.2.1, h.2.2.2.1, h.2.2.2.2⟩

/-- C6 (conditional jump).  On a non-empty stack (cursor at least 1) whose top
is `v`, `FJP` jumps to its label if and only if `v` is zero, and falls through
for every nonzero `v`, negative ones included; in both cases it pops exactly
one value: the cursor ends one lower and nothing else changes.  The slot read
is a slot of the array when the cursor is at most 99. -/
theorem C6_conditional_jump (s : State) (hne : 1 ≤ s.cursor) :
    (s.cursor ≤ 99 → InArray s.cursor) ∧
    ((FJP s).1 = true ↔ top s = 0) ∧
    (top s ≠ 0 → (FJP s).1 = false) ∧
    (FJP s).2.cursor = s.cursor - 1 ∧
    (FJP s).2.stack = s.stack ∧ (FJP s).2.vars = s.vars ∧ (FJP s).2.out = s.out := by
  refine ⟨fun hin => inArray_of_bounds _ (by omega) hin, ?_, ?_, rfl, rfl, rfl, rfl⟩
  · simp [FJP, pop, top]
  · intro h; simp [FJP, pop]; exact h

/-- C6 at a concrete input: after `push(0)` the jump is taken, after `push(-4)`
it is not; the cursor is back at 0 both times. -/
theorem C6_conditional_jump_witness :
    ((FJP (push 0 init)).1 = true ∧ (FJP (push 0 init)).2.cursor = 0) ∧
    ((FJP (push (-4) init)).1 = false ∧ (FJP (push (-4) init)).2.cursor = 0) :=
  have h0 := C6_conditional_jump (push 0 init) (by decide)
  have h1 := C6_conditional_jump (push (-4) init) (by decide)
  ⟨⟨h0.2.1.mpr (by decide), h0.2.2.2.1⟩, ⟨h1.2.2.1 (by decide), h1.2.2.2.1⟩⟩

/-- C7 (built-in call with the output primitive).  On a non-empty stack (cursor
at least 1) whose top is `v`, `csp(write)` appends to the output the
decimal text of `v` and one newline: for `v ≥ 0` the text consists of digits
whose positional value is `v`, for `v < 0` it is `-` followed by the text of
`-v`; for `v = 42` the text appended is `"42\n"`.  The cursor ends one lower and
no stack slot and no location changes.  The slot read is a slot of the array
when the cursor is at most 99. -/
theorem C7_csp_write (s : State) (hne : 1 ≤ s.cursor) :
    (s.cursor ≤ 99 → InArray s.cursor) ∧
    (csp write s).out = s.out ++ decimal (top s) ++ "\n" ∧
    (0 ≤ top s → digitsValue 0 (decimal (top s)).data = (top s).toNat ∧
      ∀ c ∈ (decimal (top s)).data, c.isDigit = true) ∧
    (top s < 0 → decimal (top s) = "-" ++ decimal (-top s)) ∧
    (top s = 42 → (csp write s).out = s.out ++ "42\n") ∧
    (csp write s).cursor = s.cursor - 1 ∧
    (csp write s).stack = s.stack ∧ (csp write s).vars = s.vars := by
  refine ⟨fun hin => inArray_of_bounds _ (by omega) hin, rfl, decimal_nonneg _,
    decimal_neg _, ?_, rfl, rfl, rfl⟩
  intro h
  show s.out ++ decimal (top s) ++ "\n" = _
  rw [h, String.append_assoc]
  rfl

/-- C7 at a concrete input: after `push(42)` from the initial state,
`csp(write)` has printed `"42\n"` and the cursor is back at 0. -/
theorem C7_csp_write_witness :
    (csp write (push 42 init)).out = "42\n" ∧ (csp write (push 42 init)).cursor = 0 :=
  have h := C7_csp_write (push 42 init) (by decide)
  ⟨h.2.2.2.2.1 (by decide), h.2.2.2.2.2.1⟩

/-- C8 (end-to-end scenario).  From a state with cursor `c` and room for two
values (the slots used are slots of the array when `c ≥ 0`), and for `a`, `b`
whose sum fits in a word,
`ldci a; ldci b; adi; stl &x; ldl &x; csp write` appends the decimal text of
`a + b` and a newline to the output, leaves `x = a + b` and restores the cursor
`c`.  From the initial state with `a = 3`, `b = 4` the output is exactly
`"7\n"`, `x` is 7 and the cursor is 0. -/
theorem C8_sum_scenario (s : State) (a b : int_t) (x : Nat)
    (hroom : s.cursor + 2 ≤ 99) (hfit : IsWord (a + b)) :
    (0 ≤ s.cursor → InArray (s.cursor + 1) ∧ InArray (s.cursor + 2)) ∧
    ((sumProgram a b x s).out = s.out ++ decimal (a + b) ++ "\n" ∧
      (sumProgram a b x s).vars x = a + b ∧
      (sumProgram a b x s).cursor = s.cursor) ∧
    ((sumProgram 3 4 x init).out = "7\n" ∧
      (sumProgram 3 4 x init).vars x = 7 ∧
      (sumProgram 3 4 x init).cursor = 0) := by
  have gen : ∀ (t : State) (u v : int_t), IsWord (u + v) →
      (sumProgram u v x t).out = t.out ++ decimal (u + v) ++ "\n" ∧
      (sumProgram u v x t).vars x = u + v ∧
      (sumProgram u v x t).cursor = t.cursor := by
    intro t u v hw
    have h1 : t.cursor + 1 + 1 - 1 - 1 + 1 = t.cursor + 1 := by omega
    have h2 : t.cursor + 1 + 1 - 1 = t.cursor + 1 := by omega
    have h3 : t.cursor + 1 ≠ t.cursor + 1 + 1 := by omega
    have h4 : t.cursor + 1 - 1 + 1 = t.cursor + 1 := by omega
    refine ⟨?_, ?_, ?_⟩
    · simp [sumProgram, csp, write, ldl, stl, adi, OP, ldci, pop, push, setAt,
        h1, h2, h3, h4, wrap32_of_isWord _ hw]
    · simp [sumProgram, csp, write, ldl, stl, adi, OP, ldci, pop, push, setAt,
        h1, h2, h3, wrap32_of_isWord _ hw]
    · simp only [sumProgram, csp, write, ldl, stl, adi, OP, ldci, pop, push]
      omega
  refine ⟨fun hc => ⟨inArray_of_bounds _ (by omega) (by omega),
    inArray_of_bounds _ (by omega) (by omega)⟩, gen s a b hfit, ?_⟩
  obtain ⟨g1, g2, g3⟩ := gen init 3 4 (by decide)
  exact ⟨g1.trans (by decide), g2, g3⟩

/-- C8 at a concrete input: started on the stack holding 9 with `a = -5`,
`b = 12` and `x` at location 2, the program prints `"7\n"`, leaves `x = 7` and
the cursor at 1. -/
theorem C8_sum_scenario_witness :
    (sumProgram (-5) 12 2 (push 9 init)).out = "7\n" ∧
    (sumProgram (-5) 12 2 (push 9 init)).vars 2 = 7 ∧
    (sumProgram (-5) 12 2 (push 9 init)).cursor = 1 :=
  have h := C8_sum_scenario (push 9 init) (-5) 12 2 (by decide) (by decide)
  ⟨h.2.1.1.trans (by decide), h.2.1.2.1, h.2.1.2.2⟩

/-- C9, as stated, fails: neither `push` nor `pop` checks the cursor.  From the
initial state 99 pushes, each made with room, lead to cursor 99; the next call,
`push(100)`, is executed all the same, writes index 100 and leaves the cursor at
100, which is not an index of the 100-slot array.  (The value pushed is 100, so
the cursor is 100 after the call even where the store outside the array lands
on the cursor itself.) -/
theorem C9_capacity_counterexample :
    pushesHaveRoom (List.replicate 99 (StackCall.push 1)) init = true ∧
    (runCalls (List.replicate 99 (StackCall.push 1)) init).cursor = 99 ∧
    slotOf (StackCall.push 100)
      (runCalls (List.replicate 99 (StackCall.push 1)) init) = 100 ∧
    (runCalls (List.replicate 99 (StackCall.push 1) ++ [StackCall.push 100])
      init).cursor = 100 ∧
    ¬ InArray (runCalls (List.replicate 99 (StackCall.push 1) ++ [StackCall.push 100])
      init).cursor := by
  have h99 : (runCalls (List.replicate 99 (StackCall.push 1)) init).cursor = 99 :=
    runCalls_replicate_push 99 1 init
  have h100 : (runCalls (List.replicate 99 (StackCall.push 1) ++ [StackCall.push 100])
      init).cursor = 100 := by
    rw [runCalls_append]
    show (runCalls (List.replicate 99 (StackCall.push 1)) init).cursor + 1 = 100
    rw [h99]
    rfl
  refine ⟨by decide, h99, ?_, h100, ?_⟩
  · show (runCalls (List.replicate 99 (StackCall.push 1)) init).cursor + 1 = 100
    rw [h99]
    rfl
  · rw [h100]
    decide

/-- C9, amended.  In the state reached from the initial state by a sequence of
`push` and `pop` calls in which every `push` is made at a cursor of at most 98,
the cursor is at most 99; when in addition every `pop` is made at a cursor of at
least 1, the cursor indexes a slot of the array.  (Every prefix of such a
sequence is such a sequence, so this covers every state passed through.) -/
theorem C9_capacity_amended (calls : List StackCall)
    (hroom : pushesHaveRoom calls init = true) :
    (runCalls calls init).cursor ≤ 99 ∧
    (popsNonEmpty calls init = true → InArray (runCalls calls init).cursor) := by
  have hle := runCalls_cursor_le calls init (by decide) hroom
  exact ⟨hle, fun hp =>
    inArray_of_bounds _ (runCalls_cursor_nonneg calls init (by decide) hp) hle⟩

/-- C9 amended, at a concrete input: 99 pushes followed by a pop and another
push never push at a cursor above 98, and end at cursor 99, inside the array. -/
theorem C9_capacity_amended_witness :
    (runCalls (List.replicate 99 (StackCall.push 1) ++
      [StackCall.pop, StackCall.push 2]) init).cursor ≤ 99 ∧
    InArray (runCalls (List.replicate 99 (StackCall.push 1) ++
      [StackCall.pop, StackCall.push 2]) init).cursor :=
  have h := C9_capacity_amended
    (List.replicate 99 (StackCall.push 1) ++ [StackCall.pop, StackCall.push 2]) (by decide)
  ⟨h.1, h.2 (by decide)⟩

/-- C10, as stated, fails: `pop` has no failure path.  Called in the initial
state (cursor 0, nothing pushed) it returns a value, the 0 held by slot 0, and
moves the cursor to -1. -/
theorem C10_underflow_counterexample :
    (pop init).1 = 0 ∧ (pop init).2.cursor = -1 ∧ (pop init).2.cursor ≠ init.cursor := by
  decide

/-- C10, amended.  `pop` on an empty stack (cursor 0) raises no error: it
returns the value held by slot 0 of the array, moves the cursor to -1, and
changes nothing else. -/
theorem C10_underflow_amended (s : State) (hempty : s.cursor = 0) :
    InArray s.cursor ∧
    (pop s).1 = s.stack 0 ∧
    (pop s).2.cursor = -1 ∧
    (pop s).2.stack = s.stack ∧ (pop s).2.vars = s.vars ∧ (pop s).2.out = s.out := by
  refine ⟨inArray_of_bounds _ (by omega) (by omega), ?_, ?_, rfl, rfl, rfl⟩
  · show s.stack s.cursor = s.stack 0
    rw [hempty]
  · show s.cursor - 1 = -1
    omega

/-- C10 amended, at the initial state: `pop` returns 0 and leaves the cursor at
-1. -/
theorem C10_underflow_amended_witness :
    init.cursor = 0 ∧ (pop init).1 = init.stack 0 ∧ (pop init).2.cursor = -1 :=
  have h := C10_underflow_amended init rfl
  ⟨rfl, h.2.1, h.2.2.1⟩

/-- C11, as stated, fails: with `INT_MIN` below `-1` on the stack the right
operand is not zero, yet the division `INT_MIN / -1` has no value (the quotient
`2^31` is not an `int`), so `dvi` does not succeed and pushes no result. -/
theorem C11_division_by_zero_counterexample :
    2 ≤ (push (-1) (push (-2147483648) init)).cursor ∧
    IsWord (second (push (-1) (push (-2147483648) init))) ∧
    IsWord (top (push (-1) (push (-2147483648) init))) ∧
    top (push (-1) (push (-2147483648) init)) ≠ 0 ∧
    (dvi (push (-1) (push (-2147483648) init))).isSome = false := by
  decide

/-- C11, amended.  `dvi` has no guard and raises no error of its own; it executes
the machine division.  On a stack holding at least two values (words `l` below
`r`), the division has no value, and `dvi` yields no state, if and only if `r`
is zero or `(l, r) = (INT_MIN, -1)`; in every other case `dvi` succeeds and
pushes one result, leaving the cursor one lower. -/
theorem C11_division_defined_amended (s : State) (hc : 2 ≤ s.cursor)
    (hl : IsWord (second s)) (hr : IsWord (top s)) :
    (s.cursor ≤ 99 → InArray (s.cursor - 1) ∧ InArray s.cursor) ∧
    (dvi s = none ↔ (top s = 0 ∨ (second s = -2 ^ 31 ∧ top s = -1))) ∧
    (¬ (top s = 0 ∨ (second s = -2 ^ 31 ∧ top s = -1)) →
      ∃ t, dvi s = some t ∧ t.cursor = s.cursor - 1 ∧
        top t = Int.tdiv (second s) (top s)) := by
  have hbad : (top s = 0 ∨ ¬ IsWord (Int.tdiv (second s) (top s))) ↔
      (top s = 0 ∨ (second s = -2 ^ 31 ∧ top s = -1)) := by
    constructor
    · rintro (h | h)
      · exact Or.inl h
      · by_cases h0 : top s = 0
        · exact Or.inl h0
        · by_cases hm : second s = -2 ^ 31 ∧ top s = -1
          · exact Or.inr hm
          · exact absurd (isWord_tdiv _ _ hl hr h0 hm) h
    · rintro (h | ⟨h1, h2⟩)
      · exact Or.inl h
      · right
        rw [h1, h2]
        decide
  refine ⟨fun h99 => ⟨inArray_of_bounds _ (by omega) (by omega),
    inArray_of_bounds _ (by omega) h99⟩, ?_, ?_⟩
  · rw [dvi_eq_none_iff]
    exact hbad
  · intro hok
    have hok2 : ¬ (top s = 0 ∨ ¬ IsWord (Int.tdiv (second s) (top s))) :=
      fun h => hok (hbad.mp h)
    have h0 : top s ≠ 0 := fun h => hok2 (Or.inl h)
    have hw : IsWord (Int.tdiv (second s) (top s)) := by
      by_contra h
      exact hok2 (Or.inr h)
    exact ⟨OP Int.tdiv s, dvi_eq_some s h0 hw, (OP_effect Int.tdiv s).1,
      (OP_effect Int.tdiv s).2.1⟩

/-- C11 amended, at concrete inputs: on the stack holding 7 below 0 `dvi` yields
no state; on the stack holding 7 below 2 it does. -/
theorem C11_division_defined_amended_witness :
    dvi (push 0 (push 7 init)) = none ∧
    (∃ t, dvi (push 2 (push 7 init)) = some t ∧ t.cursor = 1 ∧ top t = 3) :=
  have h0 := C11_division_defined_amended (push 0 (push 7 init))
    (by decide) (by decide) (by decide)
  have h1 := C11_division_defined_amended (push 2 (push 7 init))
    (by decide) (by decide) (by decide)
  ⟨h0.2.1.mpr (Or.inl (by decide)), h1.2.2 (by decide)⟩

/-- C12 (procedure call is transparent).  For every zero-argument procedure `f`
(a transformer of the machine state) and every state `s`, `cup(f)` run from `s`
produces exactly the state that `f` run from `s` produces: stack array, cursor,
variables and output.  `cup` adds no push or pop of its own: with a procedure
that does nothing the state is unchanged. -/
theorem C12_cup_transparent (f : State → State) (s : State) :
    cup f s = f s ∧
    ((cup f s).stack = (f s).stack ∧ (cup f s).cursor = (f s).cursor ∧
      (cup f s).vars = (f s).vars ∧ (cup f s).out = (f s).out) ∧
    cup (fun t => t) s = s :=
  ⟨rfl, ⟨rfl, rfl, rfl, rfl⟩, rfl⟩

/-- C13 (frame of the store primitive).  On a non-empty stack (cursor at least
1), `stl(p)` sets location `p` to the popped top value and lowers the cursor by
one; every other location, every stack slot and the output keep their value.
On a stack with room for one more value (cursor between 0 and 98), `ldl(p)`
changes no location: it pushes the value of `p`, writing only the slot after
the cursor, a slot of the array. -/
theorem C13_store_load_frame (s : State) (p : Nat) (hne : 1 ≤ s.cursor) :
    (s.cursor ≤ 99 → InArray s.cursor) ∧
    ((stl p s).vars p = top s ∧
      (∀ q : Nat, q ≠ p → (stl p s).vars q = s.vars q) ∧
      (stl p s).cursor = s.cursor - 1 ∧
      (stl p s).stack = s.stack ∧ (stl p s).out = s.out) ∧
    (∀ u : State, 0 ≤ u.cursor → u.cursor ≤ 98 →
      InArray (u.cursor + 1) ∧
      (ldl p u).vars = u.vars ∧
      (ldl p u).cursor = u.cursor + 1 ∧
      top (ldl p u) = u.vars p ∧
      (∀ i : Int, i ≠ u.cursor + 1 → (ldl p u).stack i = u.stack i) ∧
      (ldl p u).out = u.out) := by
  refine ⟨fun h99 => inArray_of_bounds _ (by omega) h99,
    ⟨?_, ?_, rfl, rfl, rfl⟩, ?_⟩
  · simp [stl, pop, top, setAt]
  · intro q hq
    simp [stl, pop, setAt, hq]
  · intro u hu0 hu98
    refine ⟨inArray_of_bounds _ (by omega) (by omega), rfl, rfl, ?_, ?_, rfl⟩
    · simp [ldl, push, top, setAt]
    · intro i hi
      simp [ldl, push, setAt, hi]

/-- C13 at a concrete input: with 8 on top of the stack, `stl(3)` sets location
3 to 8, leaves location 4 at its value 0 and lowers the cursor to 0; `ldl(3)`
from the initial state pushes the value 0 of location 3 and leaves it 0. -/
theorem C13_store_load_frame_witness :
    ((stl 3 (push 8 init)).vars 3 = 8 ∧ (stl 3 (push 8 init)).vars 4 = 0 ∧
      (stl 3 (push 8 init)).cursor = 0) ∧
    ((ldl 3 init).vars = init.vars ∧ (ldl 3 init).cursor = 1 ∧ top (ldl 3 init) = 0) :=
  have h := C13_store_load_frame (push 8 init) 3 (by decide)
  have hl := h.2.2 init (by decide) (by decide)
  ⟨⟨h.2.1.1, h.2.1.2.1 4 (by decide), h.2.1.2.2.1⟩, ⟨hl.2.1, hl.2.2.1, hl.2.2.2.1⟩⟩

/-- C14 (division semantics).  On a stack with cursor `c ≥ 0` and room for two
more values (so that both pushes write slots of the array), for words `l`, `r`
with `r ≠ 0` and `(l, r) ≠ (INT_MIN, -1)`, after `push(l); push(r)` the
operator `dvi` succeeds
and leaves on top the quotient `q` of `l` by `r` truncated toward zero: `q` is a
word, `|l - q*r| < |r|`, and `l - q*r` is zero or has the sign of `l`.  With
`l = -7`, `r = 2` the result is `-3`. -/
theorem C14_division_truncates (s : State) (l r : int_t)
    (hc : 0 ≤ s.cursor) (hroom : s.cursor + 2 ≤ 99)
    (hl : IsWord l) (hr : IsWord r) (h0 : r ≠ 0) (hmin : ¬ (l = -2 ^ 31 ∧ r = -1)) :
    (InArray (s.cursor + 1) ∧ InArray (s.cursor + 2)) ∧
    (∃ t, dvi (push r (push l s)) = some t ∧ t.cursor = s.cursor + 1 ∧
      top t = Int.tdiv l r) ∧
    IsWord (Int.tdiv l r) ∧
    (l - Int.tdiv l r * r).natAbs < r.natAbs ∧
    (l - Int.tdiv l r * r = 0 ∨
      (0 < l - Int.tdiv l r * r ∧ 0 < l) ∨ (l - Int.tdiv l r * r < 0 ∧ l < 0)) ∧
    (∃ t, dvi (push 2 (push (-7) s)) = some t ∧ top t = -3) := by
  have gen : ∀ a b : int_t, b ≠ 0 → IsWord (Int.tdiv a b) →
      ∃ t, dvi (push b (push a s)) = some t ∧ t.cursor = s.cursor + 1 ∧
        top t = Int.tdiv a b := by
    intro a b hb hw
    have ht : top (push b (push a s)) = b := by simp [top, push, setAt]
    have h2 : (push b (push a s)).stack ((push b (push a s)).cursor - 1) = a := by
      have e1 : s.cursor + 1 + 1 - 1 = s.cursor + 1 := by omega
      have e2 : s.cursor + 1 ≠ s.cursor + 1 + 1 := by omega
      simp [push, setAt, e1, e2]
    have hd := dvi_eq_some (push b (push a s)) (by rw [ht]; exact hb)
      (by rw [ht, h2]; exact hw)
    obtain ⟨e1, e2, -⟩ := OP_effect Int.tdiv (push b (push a s))
    refine ⟨_, hd, ?_, ?_⟩
    · rw [e1]; show s.cursor + 1 + 1 - 1 = s.cursor + 1; omega
    · rw [e2, h2]
      show Int.tdiv a (top (push b (push a s))) = _
      rw [ht]
  have hw := isWord_tdiv l r hl hr h0 hmin
  obtain ⟨r1, r2, r3⟩ := tdiv_remainder l r h0
  refine ⟨⟨inArray_of_bounds _ (by omega) (by omega),
    inArray_of_bounds _ (by omega) (by omega)⟩, gen l r h0 hw, hw, r1, ?_, ?_⟩
  · rcases lt_trichotomy l 0 with hneg | hzero | hpos
    · have := r3 (by unfold int_t at *; omega)
      unfold int_t at *
      omega
    · have h1 := r2 (by unfold int_t at *; omega)
      have h2 := r3 (by unfold int_t at *; omega)
      left
      unfold int_t at *
      omega
    · have := r2 (by unfold int_t at *; omega)
      unfold int_t at *
      omega
  · obtain ⟨t, ht1, -, ht3⟩ := gen (-7) 2 (by decide) (by decide)
    exact ⟨t, ht1, ht3.trans (by decide)⟩

/-- C14 at a concrete input: `13 / -4` leaves `-3` on top: the remainder 1 is
smaller than 4 and has the sign of 13. -/
theorem C14_division_truncates_witness :
    ∃ t, dvi (push (-4) (push 13 init)) = some t ∧ t.cursor = 1 ∧ top t = -3 :=
  have h := C14_division_truncates init 13 (-4) (by decide) (by decide) (by decide)
    (by decide) (by decide) (by decide)
  h.2.1.elim fun t ht => ⟨t, ht.1, ht.2.1.trans (by decide), ht.2.2.trans (by decide)⟩

/-- C15 (slot 0 is unused).  In the state reached from the initial state by a
sequence of pushes and pops that never pops an empty stack and never pushes
onto a stack already holding 99 values (so that every push has room), the
cursor is at least 0 and indexes a slot of the array, every slot a push wrote
or a pop read is a slot of the array of index at least 1, and slot 0 still
holds its initial value 0.  (Every prefix of such a sequence is such a
sequence, so this covers every state passed through.) -/
theorem C15_slot_zero_unused (calls : List StackCall)
    (h : withinCapacity 0 calls = true) :
    (0 ≤ (runCalls calls init).cursor ∧ InArray (runCalls calls init).cursor) ∧
    (∀ i ∈ slotsTouched calls init, 1 ≤ i ∧ InArray i) ∧
    (runCalls calls init).stack 0 = 0 := by
  obtain ⟨h1, h2, h3, h4⟩ := withinCapacity_slots calls 0 init rfl (by decide) h
  exact ⟨⟨h3, inArray_of_bounds _ h3 h4⟩, h1, h2⟩

/-- C15 at a concrete input: `push(5); push(6); pop; pop; push(7)` accesses the
slots 1, 2, 2, 1, 1 and leaves slot 0 at 0 and the cursor at 1. -/
theorem C15_slot_zero_unused_witness :
    slotsTouched [StackCall.push 5, StackCall.push 6, StackCall.pop, StackCall.pop,
      StackCall.push 7] init = [1, 2, 2, 1, 1] ∧
    (runCalls [StackCall.push 5, StackCall.push 6, StackCall.pop, StackCall.pop,
      StackCall.push 7] init).stack 0 = 0 ∧
    0 ≤ (runCalls [StackCall.push 5, StackCall.push 6, StackCall.pop, StackCall.pop,
      StackCall.push 7] init).cursor :=
  have h := C15_slot_zero_unused [StackCall.push 5, StackCall.push 6, StackCall.pop,
    StackCall.pop, StackCall.push 7] (by decide)
  ⟨by decide, h.2.2, h.1.1⟩

/-- C16, as stated, fails for `dvi`: on the stack holding 5, `INT_MIN`, `-1`
(cursor 3) the right operand is not zero, yet the division `INT_MIN / -1` has
no value, and `dvi` yields no state in which the cursor is 2. -/
theorem C16_stack_effect_counterexample :
    2 ≤ (push (-1) (push (-2147483648) (push 5 init))).cursor ∧
    top (push (-1) (push (-2147483648) (push 5 init))) ≠ 0 ∧
    ¬ ∃ t, dvi (push (-1) (push (-2147483648) (push 5 init))) = some t ∧
      t.cursor = (push (-1) (push (-2147483648) (push 5 init))).cursor - 1 := by
  refine ⟨by decide, by decide, ?_⟩
  have h : dvi (push (-1) (push (-2147483648) (push 5 init))) = none := by
    rw [dvi_eq_none_iff]
    right
    decide
  rintro ⟨t, ht, -⟩
  rw [h] at ht
  cases ht

/-- C16, amended.  On a stack with cursor `c ≥ 2`, each of `adi`, `sbi`, `mpi`,
`leqi`, `geqi`, `gti`, `lti`, `neqi` consumes the two top values and pushes one:
the cursor becomes `c - 1` and the slots `1..c-2` are unchanged.  The same holds
for `dvi` when its operands are words, the right operand is not zero and the
operands are not `(INT_MIN, -1)`.  `odd` on a stack with cursor `c ≥ 1` leaves
the cursor at `c` and the slots `1..c-1` unchanged. -/
theorem C16_stack_effect_amended (s : State) (hc : 2 ≤ s.cursor) :
    (s.cursor ≤ 99 → InArray (s.cursor - 1) ∧ InArray s.cursor) ∧
    (∀ op ∈ [adi, sbi, mpi, leqi, geqi, gti, lti, neqi],
      (op s).cursor = s.cursor - 1 ∧
      ∀ i : Int, 1 ≤ i → i ≤ s.cursor - 2 → (op s).stack i = s.stack i) ∧
    (IsWord (second s) → IsWord (top s) → top s ≠ 0 →
      ¬ (second s = -2 ^ 31 ∧ top s = -1) →
      ∃ t, dvi s = some t ∧ t.cursor = s.cursor - 1 ∧
        ∀ i : Int, 1 ≤ i → i ≤ s.cursor - 2 → t.stack i = s.stack i) ∧
    (∀ u : State, 1 ≤ u.cursor →
      (odd u).cursor = u.cursor ∧
      ∀ i : Int, 1 ≤ i → i ≤ u.cursor - 1 → (odd u).stack i = u.stack i) := by
  have hop : ∀ f : int_t → int_t → int_t,
      (OP f s).cursor = s.cursor - 1 ∧
      ∀ i : Int, 1 ≤ i → i ≤ s.cursor - 2 → (OP f s).stack i = s.stack i := by
    intro f
    obtain ⟨h1, -, h3, -⟩ := OP_effect f s
    exact ⟨h1, fun i _ hi => h3 i (by omega)⟩
  refine ⟨fun h99 => ⟨inArray_of_bounds _ (by omega) (by omega),
    inArray_of_bounds _ (by omega) h99⟩, ?_, ?_, ?_⟩
  · intro op hmem
    simp only [List.mem_cons, List.mem_singleton, List.not_mem_nil, or_false] at hmem
    rcases hmem with rfl | rfl | rfl | rfl | rfl | rfl | rfl | rfl <;> exact hop _
  · intro hl hr h0 hmin
    have hw := isWord_tdiv _ _ hl hr h0 hmin
    exact ⟨OP Int.tdiv s, dvi_eq_some s h0 hw, hop Int.tdiv⟩
  · intro u hu
    obtain ⟨h1, h2⟩ := odd_effect u
    exact ⟨h1, fun i _ hi => h2 i (by omega)⟩

/-- C16 amended, at a concrete input: on the stack holding 5, 7, 2 (cursor 3)
`sbi` and `dvi` leave the cursor at 2 and slot 1 at 5. -/
theorem C16_stack_effect_amended_witness :
    ((sbi (push 2 (push 7 (push 5 init)))).cursor = 3 - 1 ∧
      (sbi (push 2 (push 7 (push 5 init)))).stack 1 = 5) ∧
    (∃ t, dvi (push 2 (push 7 (push 5 init))) = some t ∧ t.cursor = 3 - 1 ∧
      t.stack 1 = 5) :=
  have h := C16_stack_effect_amended (push 2 (push 7 (push 5 init))) (by decide)
  have hs := h.2.1 sbi (by simp)
  have hd := h.2.2.1 (by decide) (by decide) (by decide) (by decide)
  ⟨⟨hs.1, hs.2 1 (by decide) (by decide)⟩,
    hd.elim fun t ht => ⟨t, ht.1, ht.2.1, ht.2.2 1 (by decide) (by decide)⟩⟩

/-- C17 (usable capacity is 99).  `push` writes the slot after the cursor and no
other.  That slot is a slot of the array exactly when the cursor is between -1
and 98; so on a stack state (cursor at least 0) `push` stays inside the array
if and only if the cursor before the call is at most 98.  From the initial
state 99 consecutive pushes all write slots of the array, and the 100th push
writes index 100, which is outside the array. -/
theorem C17_usable_capacity (s : State) (v : int_t) (hs : 0 ≤ s.cursor) :
    (slotOf (StackCall.push v) s = s.cursor + 1 ∧
      (push v s).stack (s.cursor + 1) = v ∧
      ∀ i : Int, i ≠ s.cursor + 1 → (push v s).stack i = s.stack i) ∧
    (InArray (slotOf (StackCall.push v) s) ↔ (-1 ≤ s.cursor ∧ s.cursor ≤ 98)) ∧
    (InArray (slotOf (StackCall.push v) s) ↔ s.cursor ≤ 98) ∧
    (∀ i ∈ slotsTouched (List.replicate 99 (StackCall.push v)) init, InArray i) ∧
    (slotOf (StackCall.push v) (runCalls (List.replicate 99 (StackCall.push v)) init)
        = 100 ∧ ¬ InArray 100) := by
  refine ⟨⟨rfl, ?_, ?_⟩, push_slot_inArray_iff s, ?_, ?_, ?_, by decide⟩
  · simp [push, setAt]
  · intro i hi
    simp [push, setAt, hi]
  · show InArray (s.cursor + 1) ↔ _
    rw [push_slot_inArray_iff]
    constructor
    · exact fun h => h.2
    · exact fun h => ⟨by omega, h⟩
  · intro i hi
    obtain ⟨h1, h2⟩ := slotsTouched_replicate_push 99 v init i hi
    have hc : init.cursor = 0 := rfl
    rw [hc] at h1 h2
    exact inArray_of_bounds i (by omega) (by push_cast at h2; omega)
  · show (runCalls (List.replicate 99 (StackCall.push v)) init).cursor + 1 = 100
    rw [runCalls_replicate_push]
    rfl

/-- C17 at concrete inputs: at cursor 98 the push writes slot 99, inside the
array; at cursor 99 it writes slot 100, outside. -/
theorem C17_usable_capacity_witness :
    InArray (slotOf (StackCall.push 7)
      (runCalls (List.replicate 98 (StackCall.push 1)) init)) ∧
    ¬ InArray (slotOf (StackCall.push 7)
      (runCalls (List.replicate 99 (StackCall.push 1)) init)) :=
  have c98 : (runCalls (List.replicate 98 (StackCall.push 1)) init).cursor = 98 :=
    runCalls_replicate_push 98 1 init
  have c99 : (runCalls (List.replicate 99 (StackCall.push 1)) init).cursor = 99 :=
    runCalls_replicate_push 99 1 init
  have h98 := C17_usable_capacity (runCalls (List.replicate 98 (StackCall.push 1)) init) 7
    (by rw [c98]; decide)
  have h99 := C17_usable_capacity (runCalls (List.replicate 99 (StackCall.push 1)) init) 7
    (by rw [c99]; decide)
  ⟨h98.2.2.1.mpr (le_of_eq c98),
    fun hin => absurd (h99.2.2.1.mp hin) (by rw [c99]; decide)⟩

/-- C18 (comparison feeding a conditional jump).  On a stack with cursor
`c ≥ 0` and room for two more values (so that both pushes write slots of the
array), for every pair of words `(l, r)`, the sequence
`push(l); push(r); REL; FJP(L)` jumps to `L` if and only
if the relation is false: for `lti` iff `l >= r`, for `leqi` iff `l > r`, for
`gti` iff `l <= r`, for `geqi` iff `l < r`, for `neqi` iff `l = r`; in both
cases the cursor ends where it was before the two pushes. -/
theorem C18_comparison_jump (s : State) (l r : int_t)
    (hc : 0 ≤ s.cursor) (hroom : s.cursor + 2 ≤ 99) :
    (InArray (s.cursor + 1) ∧ InArray (s.cursor + 2)) ∧
    (((FJP (lti (push r (push l s)))).1 = true ↔ l ≥ r) ∧
      (FJP (lti (push r (push l s)))).2.cursor = s.cursor) ∧
    (((FJP (leqi (push r (push l s)))).1 = true ↔ l > r) ∧
      (FJP (leqi (push r (push l s)))).2.cursor = s.cursor) ∧
    (((FJP (gti (push r (push l s)))).1 = true ↔ l ≤ r) ∧
      (FJP (gti (push r (push l s)))).2.cursor = s.cursor) ∧
    (((FJP (geqi (push r (push l s)))).1 = true ↔ l < r) ∧
      (FJP (geqi (push r (push l s)))).2.cursor = s.cursor) ∧
    (((FJP (neqi (push r (push l s)))).1 = true ↔ l = r) ∧
      (FJP (neqi (push r (push l s)))).2.cursor = s.cursor) := by
  refine ⟨⟨inArray_of_bounds _ (by omega) (by omega),
    inArray_of_bounds _ (by omega) (by omega)⟩, ?_, ?_, ?_, ?_, ?_⟩
  · obtain ⟨h1, h2⟩ :=
      FJP_OP_push_push (fun left right => boolWord (decide (left < right))) l r s
    exact ⟨h1.trans (by rw [boolWord_eq_zero]; simp), h2⟩
  · obtain ⟨h1, h2⟩ :=
      FJP_OP_push_push (fun left right => boolWord (decide (left ≤ right))) l r s
    exact ⟨h1.trans (by rw [boolWord_eq_zero]; simp), h2⟩
  · obtain ⟨h1, h2⟩ :=
      FJP_OP_push_push (fun left right => boolWord (decide (left > right))) l r s
    exact ⟨h1.trans (by rw [boolWord_eq_zero]; simp), h2⟩
  · obtain ⟨h1, h2⟩ :=
      FJP_OP_push_push (fun left right => boolWord (decide (left ≥ right))) l r s
    exact ⟨h1.trans (by rw [boolWord_eq_zero]; simp), h2⟩
  · obtain ⟨h1, h2⟩ :=
      FJP_OP_push_push (fun left right => boolWord (decide (left ≠ right))) l r s
    exact ⟨h1.trans (by rw [boolWord_eq_zero]; simp), h2⟩

/-- C18 at concrete inputs: from the initial state, `push(3); push(5); lti; FJP`
does not jump (3 < 5 holds) and `push(5); push(3); lti; FJP` jumps; the cursor
is back at 0 both times. -/
theorem C18_comparison_jump_witness :
    ((FJP (lti (push 5 (push 3 init)))).1 = false ∧
      (FJP (lti (push 5 (push 3 init)))).2.cursor = 0) ∧
    ((FJP (lti (push 3 (push 5 init)))).1 = true ∧
      (FJP (lti (push 3 (push 5 init)))).2.cursor = 0) :=
  have h35 := (C18_comparison_jump init 3 5 (by decide) (by decide)).2.1
  have h53 := (C18_comparison_jump init 5 3 (by decide) (by decide)).2.1
  ⟨⟨Bool.eq_false_iff.mpr fun hj => absurd (h35.1.mp hj) (by decide), h35.2⟩,
    ⟨h53.1.mpr (by decide), h53.2⟩⟩

end PL0
